import Mathlib

/-!
Shallow embedding of the parser-combinator library in src/parse.ts.
Strings are modelled as lists of characters; the two unbounded loops of the
source (the repetition loop of zeroOrMore and the recursion of element) are
given explicit fuel of one more than the length of their input, which is
enough for every parser that consumes at least one character per successful
step, as every parser the source ever repeats does.
-/

namespace Parse

/-- TypeScript string, modelled as a list of characters. -/
abbrev Str := List Char

/-- The ParseResult tagged union of the source: exactly one of the success
record (nextInput, result) and the error record is populated. -/
inductive PResult (A : Type) where
  | ok (nextInput : Str) (result : A)
  | err (error : Str)
deriving Repr

/-- A parser is a pure function from the remaining input to a parse result. -/
abbrev Parser (A : Type) := Str → PResult A

def PResult.isOk {A : Type} : PResult A → Bool
  | .ok _ _ => true
  | .err _ => false

/-- An ASCII single quote character, used in error messages of the source. -/
def squote : Char := Char.ofNat 39

/-- Lower-case hexadecimal digit, as produced by JSON.stringify escapes. -/
def hexDigit (n : Nat) : Char :=
  if n < 10 then Char.ofNat (48 + n) else Char.ofNat (87 + n)

/-- How JSON.stringify escapes one character inside a string literal. -/
def jsonEscapeChar (c : Char) : Str :=
  if c = '"' then ['\\', '"']
  else if c = '\\' then ['\\', '\\']
  else if c = '\n' then ['\\', 'n']
  else if c = '\r' then ['\\', 'r']
  else if c = '\t' then ['\\', 't']
  else if c.toNat = 8 then ['\\', 'b']
  else if c.toNat = 12 then ['\\', 'f']
  else if c.toNat < 32 then
    ['\\', 'u', '0', '0', hexDigit (c.toNat / 16), hexDigit (c.toNat % 16)]
  else [c]

/-- JSON.stringify of the error record: a brace, the key, the escaped error
string, a closing brace. -/
def jsonStringifyErr (e : Str) : Str :=
  '\x7b' :: ("\"error\":\"".toList) ++
    (e.foldr (fun c acc => jsonEscapeChar c ++ acc) []) ++ ['"', '\x7d']

/-- The error wrapper used by map, pair and pred in the source. -/
def badWrap (e : Str) : Str := ("bad: ".toList) ++ jsonStringifyErr e

/-- JS String.prototype.substring: clamps both indices to the string length
and swaps them when the first exceeds the second. -/
def jsSubstring (s : Str) (a b : Nat) : Str :=
  ((s.take (max (min a s.length) (min b s.length))).drop
    (min (min a s.length) (min b s.length)))

/-- JS String.prototype.startsWith. -/
def jsStartsWith : Str → Str → Bool
  | _, [] => true
  | [], _ :: _ => false
  | c :: s, e :: es => c == e && jsStartsWith s es

def map {A B : Type} (p : Parser A) (f : A → B) : Parser B := fun input =>
  match p input with
  | .err e => .err (badWrap e)
  | .ok next r => .ok next (f r)

def pair {A B : Type} (p1 : Parser A) (p2 : Parser B) : Parser (A × B) :=
  fun input =>
    match p1 input with
    | .err e => .err (badWrap e)
    | .ok next1 r1 =>
      match p2 next1 with
      | .err e => .err (badWrap e)
      | .ok next2 r2 => .ok next2 (r1, r2)

def left {A B : Type} (p1 : Parser A) (p2 : Parser B) : Parser A :=
  map (pair p1 p2) (fun r => r.1)

def right {A B : Type} (p1 : Parser A) (p2 : Parser B) : Parser B :=
  map (pair p1 p2) (fun r => r.2)

/-- The repetition loop shared by zeroOrMore and oneOrMore, with fuel. -/
def zeroOrMoreAux {A : Type} (p : Parser A) : Nat → Str → List A → PResult (List A)
  | 0, s, acc => .ok s acc.reverse
  | fuel + 1, s, acc =>
    match p s with
    | .err _ => .ok s acc.reverse
    | .ok next r => zeroOrMoreAux p fuel next (r :: acc)

def zeroOrMore {A : Type} (p : Parser A) : Parser (List A) := fun input =>
  zeroOrMoreAux p (input.length + 1) input []

def oneOrMore {A : Type} (p : Parser A) : Parser (List A) := fun input =>
  match p input with
  | .err _ => .err (squote :: input ++ squote :: (" not matched".toList))
  | .ok next r => zeroOrMoreAux p input.length next [r]

def pred {A : Type} (p : Parser A) (q : A → Bool) : Parser A := fun input =>
  match p input with
  | .err e => .err (badWrap e)
  | .ok next r => if q r then .ok next r else .err input

def anyChar : Parser Char := fun input =>
  match input with
  | [] => .err []
  | c :: rest => .ok rest c

def andThen {A B : Type} (p : Parser A) (f : A → Parser B) : Parser B :=
  fun input =>
    match p input with
    | .err e => .err e
    | .ok next r => f r next

def either {A : Type} (p1 p2 : Parser A) : Parser A := fun input =>
  match p1 input with
  | .err _ => p2 input
  | .ok next r => .ok next r

def matchLiteral (expected : Str) : Parser Str := fun s =>
  if jsStartsWith s expected then
    .ok (jsSubstring s expected.length s.length) []
  else
    .err (("no match for: ".toList) ++ squote :: expected ++
      squote :: (" in: ".toList) ++ s)

/-- The character test of the source isAlpha: every char code of the string
is an upper or lower case ASCII letter. -/
def isAlpha (s : Str) : Bool :=
  s.all fun c =>
    (decide (64 < c.toNat) && decide (c.toNat < 91)) ||
    (decide (96 < c.toNat) && decide (c.toNat < 123))

def identifier : Parser Str := fun input =>
  (let matched := input.takeWhile fun c => isAlpha [c] || c == '-'
   .ok (jsSubstring input input.length matched.length) matched)

def quotedString : Parser Str :=
  map
    (right (matchLiteral ['"'])
      (left (zeroOrMore (pred anyChar fun x => x != '"'))
        (matchLiteral ['"'])))
    (fun x => x)

/-- The whitespace character class of the source lambda: space or newline. -/
def wsChar (c : Char) : Bool := c == ' ' || c == '\n'

def whitespaceChar : Parser Char := pred anyChar wsChar

def space0 : Parser (List Char) := zeroOrMore whitespaceChar

def space1 : Parser (List Char) := oneOrMore whitespaceChar

def attributePair : Parser (Str × Str) :=
  pair identifier (right (matchLiteral ['=']) quotedString)

def attributes : Parser (List (Str × Str)) :=
  zeroOrMore (right space1 attributePair)

def elementStart : Parser (Str × List (Str × Str)) :=
  right (matchLiteral ['<']) (pair identifier attributes)

/-- The element node of the source: a name, an ordered attribute list and an
ordered list of children. -/
inductive XElement where
  | mk (name : Str) (attributes : List (Str × Str)) (children : List XElement)

def XElement.name : XElement → Str
  | .mk n _ _ => n

def XElement.attrs : XElement → List (Str × Str)
  | .mk _ a _ => a

def XElement.children : XElement → List XElement
  | .mk _ _ c => c

def openElement : Parser XElement :=
  map (left elementStart (matchLiteral ['>']))
    (fun input => XElement.mk input.1 input.2 [])

def singleElement : Parser XElement :=
  map (left elementStart (matchLiteral ['/', '>']))
    (fun input => XElement.mk input.1 input.2 [])

def closeElement (expectedName : Str) : Parser Str :=
  pred
    (right (matchLiteral ['<', '/'])
      (left identifier (matchLiteral ['>'])))
    (fun x => x == expectedName)

def whitespaceWrap {A : Type} (p : Parser A) : Parser A :=
  right space0 (left p space0)

/-- The recursive element parser, with fuel bounding the nesting depth; the
body of each level is exactly the source composition, with parentElement
inlined (its andThen continuation closes over the parsed open tag and
attaches the children in place). -/
def elementF : Nat → Parser XElement
  | 0 => fun _ => .err []
  | n + 1 =>
    whitespaceWrap (either singleElement
      (andThen openElement fun el =>
        map (left (zeroOrMore (elementF n)) (closeElement el.name))
          (fun x => XElement.mk el.name el.attrs x)))

/-- The parentElement parser of the source at a given recursion fuel. -/
def parentElementF (n : Nat) : Parser XElement :=
  andThen openElement fun el =>
    map (left (zeroOrMore (elementF n)) (closeElement el.name))
      (fun x => XElement.mk el.name el.attrs x)

/-- The top-level element parser: fuel one more than the input length, which
the nesting depth of any parse can never reach since every nesting level
consumes at least one character. -/
def element : Parser XElement := fun input => elementF (input.length + 1) input

/-- True when the list is empty or its head fails the predicate. -/
def headNot (p : Char → Bool) : Str → Bool
  | [] => true
  | c :: _ => !p c

lemma takeWhile_run {p : Char → Bool} :
    ∀ a b : Str, a.all p = true → headNot p b = true →
      (a ++ b).takeWhile p = a ∧ (a ++ b).dropWhile p = b := by
  intro a
  induction a with
  | nil =>
    intro b _ h2
    cases b with
    | nil => simp
    | cons c t =>
      simp only [headNot, Bool.not_eq_true'] at h2
      simp [List.takeWhile, List.dropWhile, h2]
  | cons x xs ih =>
    intro b h1 h2
    simp only [List.all_cons, Bool.and_eq_true] at h1
    have := ih b h1.2 h2
    simp [List.takeWhile, List.dropWhile, h1.1, this.1, this.2]

lemma headNot_of_dropWhile {p : Char → Bool} :
    ∀ s : Str, headNot p (s.dropWhile p) = true := by
  intro s
  induction s with
  | nil => simp [headNot]
  | cons c t ih =>
    by_cases h : p c = true
    · simpa [List.dropWhile, h] using ih
    · simp only [Bool.not_eq_true] at h
      simp [List.dropWhile, h, headNot]

lemma all_takeWhile {p : Char → Bool} :
    ∀ s : Str, (s.takeWhile p).all p = true := by
  intro s
  induction s with
  | nil => simp
  | cons c t ih =>
    by_cases h : p c = true
    · simp [List.takeWhile, h, ih]
    · simp only [Bool.not_eq_true] at h
      simp [List.takeWhile, h]

lemma jsStartsWith_append : ∀ e rest : Str, jsStartsWith (e ++ rest) e = true := by
  intro e
  induction e with
  | nil => intro rest; cases rest <;> simp [jsStartsWith]
  | cons c t ih => intro rest; simp [jsStartsWith, ih]

lemma jsStartsWith_ex : ∀ s e : Str, jsStartsWith s e = true → ∃ rest, s = e ++ rest := by
  intro s e
  induction e generalizing s with
  | nil => intro _; exact ⟨s, rfl⟩
  | cons c t ih =>
    intro h
    cases s with
    | nil => simp [jsStartsWith] at h
    | cons x xs =>
      simp only [jsStartsWith, Bool.and_eq_true, beq_iff_eq] at h
      obtain ⟨rest, hr⟩ := ih xs h.2
      exact ⟨rest, by simp [h.1, hr]⟩

lemma jsSubstring_of_le (s : Str) (m : Nat) (h : m ≤ s.length) :
    jsSubstring s s.length m = s.drop m := by
  unfold jsSubstring
  simp [Nat.min_eq_left h, Nat.max_eq_left h, Nat.min_eq_right h]

lemma jsSubstring_of_le2 (s : Str) (m : Nat) (h : m ≤ s.length) :
    jsSubstring s m s.length = s.drop m := by
  unfold jsSubstring
  simp [Nat.min_eq_left h, Nat.max_eq_right h, Nat.min_eq_right h]

lemma matchLiteral_ok (e rest : Str) : matchLiteral e (e ++ rest) = .ok rest [] := by
  unfold matchLiteral
  rw [jsStartsWith_append]
  simp only [if_true]
  rw [jsSubstring_of_le2 _ _ (by simp)]
  simp

lemma matchLiteral_ok_iff (e s next : Str) (r : Str) :
    matchLiteral e s = .ok next r ↔ (s = e ++ next ∧ r = []) := by
  constructor
  · intro h
    by_cases hs : jsStartsWith s e = true
    · obtain ⟨rest, hr⟩ := jsStartsWith_ex s e hs
      subst hr
      rw [matchLiteral_ok] at h
      injection h with h1 h2
      exact ⟨by rw [h1], h2.symm⟩
    · simp only [Bool.not_eq_true] at hs
      unfold matchLiteral at h
      rw [hs] at h
      simp at h
  · rintro ⟨rfl, rfl⟩
    exact matchLiteral_ok e next

lemma map_ok {A B : Type} (p : Parser A) (f : A → B) {s next : Str} {r : A}
    (h : p s = .ok next r) : map p f s = .ok next (f r) := by
  simp [map, h]

lemma map_err {A B : Type} (p : Parser A) (f : A → B) {s e : Str}
    (h : p s = .err e) : map p f s = .err (badWrap e) := by
  simp [map, h]

lemma pair_ok {A B : Type} (p1 : Parser A) (p2 : Parser B)
    {s n1 n2 : Str} {r1 : A} {r2 : B}
    (h1 : p1 s = .ok n1 r1) (h2 : p2 n1 = .ok n2 r2) :
    pair p1 p2 s = .ok n2 (r1, r2) := by
  simp [pair, h1, h2]

lemma pair_err1 {A B : Type} (p1 : Parser A) (p2 : Parser B) {s e : Str}
    (h : p1 s = .err e) : pair p1 p2 s = .err (badWrap e) := by
  simp [pair, h]

lemma pair_err2 {A B : Type} (p1 : Parser A) (p2 : Parser B)
    {s n1 e : Str} {r1 : A}
    (h1 : p1 s = .ok n1 r1) (h2 : p2 n1 = .err e) :
    pair p1 p2 s = .err (badWrap e) := by
  simp [pair, h1, h2]

lemma left_ok {A B : Type} (p1 : Parser A) (p2 : Parser B)
    {s n1 n2 : Str} {r1 : A} {r2 : B}
    (h1 : p1 s = .ok n1 r1) (h2 : p2 n1 = .ok n2 r2) :
    left p1 p2 s = .ok n2 r1 :=
  map_ok _ _ (pair_ok p1 p2 h1 h2)

lemma right_ok {A B : Type} (p1 : Parser A) (p2 : Parser B)
    {s n1 n2 : Str} {r1 : A} {r2 : B}
    (h1 : p1 s = .ok n1 r1) (h2 : p2 n1 = .ok n2 r2) :
    right p1 p2 s = .ok n2 r2 :=
  map_ok _ _ (pair_ok p1 p2 h1 h2)

lemma pred_ok {A : Type} (p : Parser A) (q : A → Bool) {s next : Str} {r : A}
    (h : p s = .ok next r) (hq : q r = true) : pred p q s = .ok next r := by
  simp [pred, h, hq]

lemma pred_rej {A : Type} (p : Parser A) (q : A → Bool) {s next : Str} {r : A}
    (h : p s = .ok next r) (hq : q r = false) : pred p q s = .err s := by
  simp [pred, h, hq]

lemma pred_err {A : Type} (p : Parser A) (q : A → Bool) {s e : Str}
    (h : p s = .err e) : pred p q s = .err (badWrap e) := by
  simp [pred, h]

lemma either_ok1 {A : Type} (p1 p2 : Parser A) {s next : Str} {r : A}
    (h : p1 s = .ok next r) : either p1 p2 s = .ok next r := by
  simp [either, h]

lemma either_of_err {A : Type} (p1 p2 : Parser A) {s e : Str}
    (h : p1 s = .err e) : either p1 p2 s = p2 s := by
  simp [either, h]

lemma andThen_ok {A B : Type} (p : Parser A) (f : A → Parser B)
    {s next : Str} {r : A}
    (h : p s = .ok next r) : andThen p f s = f r next := by
  simp [andThen, h]

lemma andThen_err {A B : Type} (p : Parser A) (f : A → Parser B) {s e : Str}
    (h : p s = .err e) : andThen p f s = .err e := by
  simp [andThen, h]

/-- The possible runs of the repetition loop: a sequence of successful
applications of the parser, each consuming at least one character, ending at
a cursor where the parser fails. -/
inductive Many {A : Type} (p : Parser A) : Str → Str → List A → Prop where
  | nil {s e : Str} : p s = .err e → Many p s s []
  | cons {s next rest : Str} {r : A} {l : List A} :
      p s = .ok next r → next.length < s.length →
      Many p next rest l → Many p s rest (r :: l)

lemma zeroOrMoreAux_of_many {A : Type} {p : Parser A} {s rest : Str} {l : List A}
    (h : Many p s rest l) :
    ∀ acc : List A, ∀ fuel : Nat, s.length < fuel →
      zeroOrMoreAux p fuel s acc = .ok rest (acc.reverse ++ l) := by
  induction h with
  | nil he =>
    intro acc fuel hf
    cases fuel with
    | zero => omega
    | succ m => simp [zeroOrMoreAux, he]
  | cons hok hlt _ ih =>
    intro acc fuel hf
    cases fuel with
    | zero => omega
    | succ m =>
      simp only [zeroOrMoreAux, hok]
      rw [ih _ m (by omega)]
      simp

lemma zeroOrMore_of_many {A : Type} {p : Parser A} {s rest : Str} {l : List A}
    (h : Many p s rest l) : zeroOrMore p s = .ok rest l := by
  unfold zeroOrMore
  rw [zeroOrMoreAux_of_many h [] (s.length + 1) (by omega)]
  simp

lemma zeroOrMoreAux_never_err {A : Type} (p : Parser A) :
    ∀ (fuel : Nat) (s : Str) (acc : List A),
      ∃ next l, zeroOrMoreAux p fuel s acc = .ok next l := by
  intro fuel
  induction fuel with
  | zero => intro s acc; exact ⟨s, acc.reverse, rfl⟩
  | succ m ih =>
    intro s acc
    unfold zeroOrMoreAux
    cases h : p s with
    | err e => exact ⟨s, acc.reverse, rfl⟩
    | ok next r => exact ih next (r :: acc)

/-- The identifier character class as the specification words it: an ASCII
letter A-Z or a-z, or a hyphen. -/
def specIdentChar (c : Char) : Bool :=
  (decide (65 ≤ c.toNat) && decide (c.toNat ≤ 90)) ||
  (decide (97 ≤ c.toNat) && decide (c.toNat ≤ 122)) ||
  c == '-'

lemma identChar_eq (c : Char) : (isAlpha [c] || c == '-') = specIdentChar c := by
  by_cases hd : c = '-'
  · simp [isAlpha, specIdentChar, hd]
  · have hd2 : (c == '-') = false := by simp [hd]
    simp only [isAlpha, List.all_cons, List.all_nil, Bool.and_true,
      specIdentChar, hd2, Bool.or_false]
    rw [Bool.eq_iff_iff]
    simp only [Bool.or_eq_true, Bool.and_eq_true, decide_eq_true_eq]
    omega

lemma length_takeWhile {p : Char → Bool} :
    ∀ s : Str, (s.takeWhile p).length ≤ s.length := by
  intro s
  induction s with
  | nil => simp
  | cons c t ih =>
    by_cases h : p c = true
    · simpa [List.takeWhile, h] using ih
    · simp only [Bool.not_eq_true] at h
      simp [List.takeWhile, h]

lemma drop_takeWhile_length {p : Char → Bool} :
    ∀ s : Str, s.drop (s.takeWhile p).length = s.dropWhile p := by
  intro s
  induction s with
  | nil => simp
  | cons c t ih =>
    by_cases h : p c = true
    · simp [List.takeWhile, List.dropWhile, h, ih]
    · simp only [Bool.not_eq_true] at h
      simp [List.takeWhile, List.dropWhile, h]

lemma identifier_eq (s : Str) :
    identifier s = .ok (s.dropWhile specIdentChar) (s.takeWhile specIdentChar) := by
  have hfn : (fun c => isAlpha [c] || c == '-') = specIdentChar :=
    funext identChar_eq
  simp only [identifier, hfn]
  rw [jsSubstring_of_le s _ (length_takeWhile s), drop_takeWhile_length]

lemma identifier_run {name rest : Str}
    (hname : name.all specIdentChar = true)
    (hrest : headNot specIdentChar rest = true) :
    identifier (name ++ rest) = .ok rest name := by
  rw [identifier_eq]
  have := takeWhile_run name rest hname hrest
  rw [this.1, this.2]

/-- zeroOrMore over (pred anyChar q) consumes exactly the maximal prefix of
characters satisfying q. -/
lemma zeroOrMoreAux_pred_anyChar (q : Char → Bool) :
    ∀ (fuel : Nat) (s : Str) (acc : List Char), s.length < fuel →
      zeroOrMoreAux (pred anyChar q) fuel s acc =
        .ok (s.dropWhile q) (acc.reverse ++ s.takeWhile q) := by
  intro fuel
  induction fuel with
  | zero => intro s acc h; omega
  | succ m ih =>
    intro s acc h
    cases s with
    | nil =>
      have he : pred anyChar q [] = .err (badWrap []) :=
        pred_err anyChar q rfl
      simp [zeroOrMoreAux, he]
    | cons c t =>
      have hc : anyChar (c :: t) = .ok t c := rfl
      by_cases hq : q c = true
      · have hok : pred anyChar q (c :: t) = .ok t c := pred_ok anyChar q hc hq
        simp only [zeroOrMoreAux, hok]
        rw [ih t (c :: acc) (by simp at h ⊢; omega)]
        simp [List.takeWhile, List.dropWhile, hq]
      · simp only [Bool.not_eq_true] at hq
        have hrej : pred anyChar q (c :: t) = .err (c :: t) :=
          pred_rej anyChar q hc hq
        simp [zeroOrMoreAux, hrej, List.takeWhile, List.dropWhile, hq]

lemma zeroOrMore_pred_anyChar (q : Char → Bool) (s : Str) :
    zeroOrMore (pred anyChar q) s = .ok (s.dropWhile q) (s.takeWhile q) := by
  unfold zeroOrMore
  rw [zeroOrMoreAux_pred_anyChar q (s.length + 1) s [] (by omega)]
  simp

lemma space0_run (s : Str) :
    space0 s = .ok (s.dropWhile wsChar) (s.takeWhile wsChar) :=
  zeroOrMore_pred_anyChar wsChar s

lemma space0_none {s : Str} (h : headNot wsChar s = true) :
    space0 s = .ok s [] := by
  have := takeWhile_run [] s rfl h
  simp only [List.nil_append] at this
  rw [space0_run, this.1, this.2]

lemma space1_run {c : Char} {t : Str} (hc : wsChar c = true) :
    space1 (c :: t) = .ok (t.dropWhile wsChar) (c :: t.takeWhile wsChar) := by
  unfold space1 oneOrMore whitespaceChar
  have hok : pred anyChar wsChar (c :: t) = .ok t c := pred_ok anyChar _ rfl hc
  simp only [hok]
  rw [zeroOrMoreAux_pred_anyChar wsChar (c :: t).length t [c] (by simp)]
  simp

lemma dropWhile_none {p : Char → Bool} {s : Str} (h : headNot p s = true) :
    s.dropWhile p = s ∧ s.takeWhile p = [] := by
  cases s with
  | nil => simp
  | cons c t =>
    simp only [headNot, Bool.not_eq_true'] at h
    simp [List.dropWhile, List.takeWhile, h]

lemma spec_toNat {c : Char} (h : specIdentChar c = true) :
    (65 ≤ c.toNat ∧ c.toNat ≤ 90) ∨ (97 ≤ c.toNat ∧ c.toNat ≤ 122) ∨ c.toNat = 45 := by
  simp only [specIdentChar, Bool.or_eq_true, Bool.and_eq_true, decide_eq_true_eq,
    beq_iff_eq] at h
  rcases h with (h | h) | h
  · exact .inl h
  · exact .inr (.inl h)
  · subst h; exact .inr (.inr rfl)

lemma spec_beq_false {c x : Char} (h : specIdentChar c = true)
    (hx : ¬((65 ≤ x.toNat ∧ x.toNat ≤ 90) ∨ (97 ≤ x.toNat ∧ x.toNat ≤ 122) ∨
      x.toNat = 45)) :
    (c == x) = false := by
  have ht := spec_toNat h
  simp only [beq_eq_false_iff_ne]
  intro he
  subst he
  exact hx ht

lemma spec_not_ws {c : Char} (h : specIdentChar c = true) : wsChar c = false := by
  simp only [wsChar, Bool.or_eq_false_iff]
  exact ⟨spec_beq_false h (by decide), spec_beq_false h (by decide)⟩

lemma space1_err {s : Str} (h : headNot wsChar s = true) :
    space1 s = .err (squote :: s ++ squote :: (" not matched".toList)) := by
  unfold space1 oneOrMore
  cases s with
  | nil =>
    have he : whitespaceChar [] = .err (badWrap []) := pred_err anyChar _ rfl
    simp only [he]
  | cons c t =>
    simp only [headNot, Bool.not_eq_true'] at h
    have he : whitespaceChar (c :: t) = .err (c :: t) :=
      pred_rej anyChar _ rfl h
    simp only [he]

lemma matchLiteral_cons1 (c : Char) (rest : Str) :
    matchLiteral [c] (c :: rest) = .ok rest [] :=
  matchLiteral_ok [c] rest

lemma matchLiteral_cons2 (c d : Char) (rest : Str) :
    matchLiteral [c, d] (c :: d :: rest) = .ok rest [] :=
  matchLiteral_ok [c, d] rest

lemma matchLiteral_isErr {e s : Str} (h : jsStartsWith s e = false) :
    ∃ msg, matchLiteral e s = .err msg := by
  refine ⟨("no match for: ".toList) ++ squote :: e ++
    squote :: (" in: ".toList) ++ s, ?_⟩
  unfold matchLiteral
  rw [h]
  simp

lemma map_isErr {A B : Type} (p : Parser A) (f : A → B) {s : Str}
    (h : ∃ e, p s = .err e) : ∃ e2, map p f s = .err e2 := by
  obtain ⟨e, he⟩ := h
  exact ⟨_, map_err p f he⟩

lemma pair_isErr1 {A B : Type} (p1 : Parser A) (p2 : Parser B) {s : Str}
    (h : ∃ e, p1 s = .err e) : ∃ e2, pair p1 p2 s = .err e2 := by
  obtain ⟨e, he⟩ := h
  exact ⟨_, pair_err1 p1 p2 he⟩

lemma pair_isErr2 {A B : Type} (p1 : Parser A) (p2 : Parser B)
    {s n1 : Str} {r1 : A}
    (h1 : p1 s = .ok n1 r1) (h : ∃ e, p2 n1 = .err e) :
    ∃ e2, pair p1 p2 s = .err e2 := by
  obtain ⟨e, he⟩ := h
  exact ⟨_, pair_err2 p1 p2 h1 he⟩

lemma andThen_isErr {A B : Type} (p : Parser A) (f : A → Parser B) {s : Str}
    (h : ∃ e, p s = .err e) : ∃ e2, andThen p f s = .err e2 := by
  obtain ⟨e, he⟩ := h
  exact ⟨_, andThen_err p f he⟩

lemma either_isErr {A : Type} (p1 p2 : Parser A) {s : Str}
    (h1 : ∃ e, p1 s = .err e) (h2 : ∃ e, p2 s = .err e) :
    ∃ e2, either p1 p2 s = .err e2 := by
  obtain ⟨e, he⟩ := h1
  rw [either_of_err p1 p2 he]
  exact h2

/-- A well formed attribute: the name is a run of identifier characters, the
value holds no double quote. -/
def goodAttr (a : Str × Str) : Bool :=
  a.1.all specIdentChar && a.2.all (fun c => c != '"')

lemma quotedString_run {v rest : Str} (hv : v.all (fun c => c != '"') = true) :
    quotedString ('"' :: (v ++ '"' :: rest)) = .ok rest v := by
  unfold quotedString
  have h1 : matchLiteral ['"'] ('"' :: (v ++ '"' :: rest)) =
      .ok (v ++ '"' :: rest) [] := matchLiteral_cons1 '"' _
  have hz : zeroOrMore (pred anyChar fun x => x != '"') (v ++ '"' :: rest) =
      .ok ('"' :: rest) v := by
    rw [zeroOrMore_pred_anyChar]
    have := takeWhile_run v ('"' :: rest) hv rfl
    rw [this.1, this.2]
  have h2 : matchLiteral ['"'] ('"' :: rest) = .ok rest [] :=
    matchLiteral_cons1 '"' rest
  exact map_ok _ _ (right_ok _ _ h1 (left_ok _ _ hz h2))

lemma attributePair_run {n v rest : Str}
    (hn : n.all specIdentChar = true)
    (hv : v.all (fun c => c != '"') = true) :
    attributePair (n ++ '=' :: '"' :: (v ++ '"' :: rest)) = .ok rest (n, v) := by
  unfold attributePair
  have h1 : identifier (n ++ '=' :: '"' :: (v ++ '"' :: rest)) =
      .ok ('=' :: '"' :: (v ++ '"' :: rest)) n := identifier_run hn rfl
  have h2 : matchLiteral ['='] ('=' :: '"' :: (v ++ '"' :: rest)) =
      .ok ('"' :: (v ++ '"' :: rest)) [] := matchLiteral_cons1 '=' _
  exact pair_ok _ _ h1 (right_ok _ _ h2 (quotedString_run hv))

lemma attrStep_err {rest : Str} (h : headNot wsChar rest = true) :
    ∃ e, right space1 attributePair rest = .err e := by
  unfold right
  apply map_isErr
  apply pair_isErr1
  exact ⟨_, space1_err h⟩

/-- Modelled from the spec: the canonical textual form of one attribute — a
mandatory space, the name, an equals sign, then the value in double quotes. -/
def renderAttr (a : Str × Str) : Str := ' ' :: (a.1 ++ '=' :: '"' :: (a.2 ++ ['"']))

/-- Modelled from the spec: the attribute list rendered in order. -/
def renderAttrs : List (Str × Str) → Str
  | [] => []
  | a :: l => renderAttr a ++ renderAttrs l

lemma headNot_ws_spec_append {n t : Str} (hn : n.all specIdentChar = true)
    (ht : headNot wsChar t = true) : headNot wsChar (n ++ t) = true := by
  cases n with
  | nil => simpa using ht
  | cons c n2 =>
    simp only [List.all_cons, Bool.and_eq_true] at hn
    simp [headNot, spec_not_ws hn.1]

lemma attributes_many {attrs : List (Str × Str)} :
    ∀ {rest : Str}, attrs.all goodAttr = true → headNot wsChar rest = true →
      Many (right space1 attributePair) (renderAttrs attrs ++ rest) rest attrs := by
  induction attrs with
  | nil =>
    intro rest _ hrest
    obtain ⟨e, he⟩ := attrStep_err hrest
    exact Many.nil he
  | cons a attrs2 ih =>
    intro rest ha hrest
    simp only [List.all_cons, Bool.and_eq_true, goodAttr] at ha
    obtain ⟨⟨ha1, ha2⟩, hrest2⟩ := ha
    have hshape : renderAttrs (a :: attrs2) ++ rest =
        ' ' :: (a.1 ++ '=' :: '"' :: (a.2 ++ '"' :: (renderAttrs attrs2 ++ rest))) := by
      simp [renderAttrs, renderAttr, List.append_assoc]
    rw [hshape]
    have hnot : headNot wsChar
        (a.1 ++ '=' :: '"' :: (a.2 ++ '"' :: (renderAttrs attrs2 ++ rest))) = true :=
      headNot_ws_spec_append ha1 rfl
    have hs1 : space1
        (' ' :: (a.1 ++ '=' :: '"' :: (a.2 ++ '"' :: (renderAttrs attrs2 ++ rest)))) =
        .ok (a.1 ++ '=' :: '"' :: (a.2 ++ '"' :: (renderAttrs attrs2 ++ rest))) [' '] := by
      rw [space1_run (show wsChar ' ' = true from rfl)]
      have := dropWhile_none hnot
      rw [this.1, this.2]
    have hap : attributePair
        (a.1 ++ '=' :: '"' :: (a.2 ++ '"' :: (renderAttrs attrs2 ++ rest))) =
        .ok (renderAttrs attrs2 ++ rest) a :=
      attributePair_run ha1 ha2
    have hstep : right space1 attributePair
        (' ' :: (a.1 ++ '=' :: '"' :: (a.2 ++ '"' :: (renderAttrs attrs2 ++ rest)))) =
        .ok (renderAttrs attrs2 ++ rest) a :=
      right_ok _ _ hs1 hap
    have hlen : (renderAttrs attrs2 ++ rest).length <
        (' ' :: (a.1 ++ '=' :: '"' :: (a.2 ++ '"' :: (renderAttrs attrs2 ++ rest)))).length := by
      simp
      omega
    exact Many.cons hstep hlen (ih hrest2 hrest)

lemma attributes_run {attrs : List (Str × Str)} {rest : Str}
    (ha : attrs.all goodAttr = true) (hrest : headNot wsChar rest = true) :
    attributes (renderAttrs attrs ++ rest) = .ok rest attrs :=
  zeroOrMore_of_many (attributes_many ha hrest)

lemma headNot_spec_renderAttrs {attrs : List (Str × Str)} {rest : Str}
    (hrest : headNot specIdentChar rest = true) :
    headNot specIdentChar (renderAttrs attrs ++ rest) = true := by
  cases attrs with
  | nil => simpa using hrest
  | cons a l => rfl

lemma elementStart_run {name : Str} {attrs : List (Str × Str)} {rest : Str}
    (hname : name.all specIdentChar = true) (hattrs : attrs.all goodAttr = true)
    (hrest1 : headNot specIdentChar rest = true)
    (hrest2 : headNot wsChar rest = true) :
    elementStart ('<' :: (name ++ (renderAttrs attrs ++ rest))) =
      .ok rest (name, attrs) := by
  unfold elementStart
  have h0 : matchLiteral ['<'] ('<' :: (name ++ (renderAttrs attrs ++ rest))) =
      .ok (name ++ (renderAttrs attrs ++ rest)) [] := matchLiteral_cons1 '<' _
  have h1 : identifier (name ++ (renderAttrs attrs ++ rest)) =
      .ok (renderAttrs attrs ++ rest) name :=
    identifier_run hname (headNot_spec_renderAttrs hrest1)
  have h2 : attributes (renderAttrs attrs ++ rest) = .ok rest attrs :=
    attributes_run hattrs hrest2
  exact right_ok _ _ h0 (pair_ok _ _ h1 h2)

lemma openElement_run {name : Str} {attrs : List (Str × Str)} {rest : Str}
    (hname : name.all specIdentChar = true)
    (hattrs : attrs.all goodAttr = true) :
    openElement ('<' :: (name ++ (renderAttrs attrs ++ '>' :: rest))) =
      .ok rest (XElement.mk name attrs []) := by
  unfold openElement
  have h1 : elementStart ('<' :: (name ++ (renderAttrs attrs ++ '>' :: rest))) =
      .ok ('>' :: rest) (name, attrs) :=
    elementStart_run hname hattrs rfl rfl
  exact map_ok _ _ (left_ok _ _ h1 (matchLiteral_cons1 '>' rest))

lemma singleElement_run {name : Str} {attrs : List (Str × Str)} {rest : Str}
    (hname : name.all specIdentChar = true)
    (hattrs : attrs.all goodAttr = true) :
    singleElement ('<' :: (name ++ (renderAttrs attrs ++ '/' :: '>' :: rest))) =
      .ok rest (XElement.mk name attrs []) := by
  unfold singleElement
  have h1 : elementStart ('<' :: (name ++ (renderAttrs attrs ++ '/' :: '>' :: rest))) =
      .ok ('/' :: '>' :: rest) (name, attrs) :=
    elementStart_run hname hattrs rfl rfl
  exact map_ok _ _ (left_ok _ _ h1 (matchLiteral_cons2 '/' '>' rest))

lemma closeElement_run {name rest : Str} (hn : name.all specIdentChar = true) :
    closeElement name ('<' :: '/' :: (name ++ '>' :: rest)) = .ok rest name := by
  unfold closeElement
  have h0 : matchLiteral ['<', '/'] ('<' :: '/' :: (name ++ '>' :: rest)) =
      .ok (name ++ '>' :: rest) [] := matchLiteral_cons2 '<' '/' _
  have h1 : identifier (name ++ '>' :: rest) = .ok ('>' :: rest) name :=
    identifier_run hn rfl
  refine pred_ok _ _ ?_ (by simp)
  exact right_ok _ _ h0 (left_ok _ _ h1 (matchLiteral_cons1 '>' rest))

lemma whitespaceWrap_run {A : Type} {p : Parser A} {s next : Str} {r : A}
    (hs : headNot wsChar s = true) (h : p s = .ok next r)
    (hnext : headNot wsChar next = true) :
    whitespaceWrap p s = .ok next r := by
  unfold whitespaceWrap
  exact right_ok _ _ (space0_none hs) (left_ok _ _ h (space0_none hnext))

lemma whitespaceWrap_isErr {A : Type} {p : Parser A} {s : Str}
    (hs : headNot wsChar s = true) (h : ∃ e, p s = .err e) :
    ∃ e2, whitespaceWrap p s = .err e2 := by
  unfold whitespaceWrap right
  apply map_isErr
  apply pair_isErr2 _ _ (space0_none hs)
  unfold left
  exact map_isErr _ _ (pair_isErr1 _ _ h)

mutual
/-- Modelled from the spec: no render function exists in the repository; this
is the canonical textual form of the grammar that the round-trip property of
the spec speaks about. A childless element renders self-closing; an element
with children renders as an open tag, the rendered children in order, and a
matching closing tag. -/
def render : XElement → Str
  | .mk name attrs [] => '<' :: (name ++ (renderAttrs attrs ++ ['/', '>']))
  | .mk name attrs (c :: cs) =>
      '<' :: (name ++ (renderAttrs attrs ++ '>' ::
        (renderChildren (c :: cs) ++ '<' :: '/' :: (name ++ ['>']))))
/-- Modelled from the spec: the children rendered in order, adjacent. -/
def renderChildren : List XElement → Str
  | [] => []
  | c :: cs => render c ++ renderChildren cs
end

mutual
/-- Well formedness for the amended round-trip claim: the element name and
every attribute name is a run of ASCII letters and hyphens, no attribute
value holds a double quote, and an element with children has a nonempty
name; recursively so for the children. -/
def wf : XElement → Bool
  | .mk name attrs cs =>
    name.all specIdentChar && attrs.all goodAttr &&
      (cs.isEmpty || !name.isEmpty) && wfList cs
def wfList : List XElement → Bool
  | [] => true
  | c :: cs => wf c && wfList cs
end

mutual
/-- Nesting depth of an element tree. -/
def depth : XElement → Nat
  | .mk _ _ cs => 1 + depthList cs
def depthList : List XElement → Nat
  | [] => 0
  | c :: cs => max (depth c) (depthList cs)
end

lemma render_head (t : XElement) : ∃ tail, render t = '<' :: tail := by
  cases t with
  | mk name attrs cs => cases cs <;> exact ⟨_, rfl⟩

lemma headNot_ws_render_append (t : XElement) (x : Str) :
    headNot wsChar (render t ++ x) = true := by
  obtain ⟨tail, h⟩ := render_head t
  rw [h]
  rfl

lemma render_length_pos (t : XElement) : 0 < (render t).length := by
  obtain ⟨tail, h⟩ := render_head t
  simp [h]

lemma headNot_ws_renderChildren {cs : List XElement} {x : Str}
    (hx : headNot wsChar x = true) :
    headNot wsChar (renderChildren cs ++ x) = true := by
  cases cs with
  | nil => simpa using hx
  | cons c cs2 =>
    show headNot wsChar ((render c ++ renderChildren cs2) ++ x) = true
    rw [List.append_assoc]
    exact headNot_ws_render_append c _

lemma singleElement_err_at_open {name : Str} {attrs : List (Str × Str)}
    {rest : Str}
    (hname : name.all specIdentChar = true)
    (hattrs : attrs.all goodAttr = true) :
    ∃ e, singleElement
      ('<' :: (name ++ (renderAttrs attrs ++ '>' :: rest))) = .err e := by
  unfold singleElement
  apply map_isErr
  unfold left
  apply map_isErr
  apply pair_isErr2 _ _ (elementStart_run hname hattrs (by rfl) (by rfl))
  exact matchLiteral_isErr rfl

lemma elementF_err_at_close {n : Nat} {c : Char} {name2 rest : Str}
    (hc : specIdentChar c = true) :
    ∃ e, elementF n ('<' :: '/' :: ((c :: name2) ++ '>' :: rest)) = .err e := by
  cases n with
  | zero => exact ⟨[], rfl⟩
  | succ m =>
    have h0 : matchLiteral ['<'] ('<' :: '/' :: ((c :: name2) ++ '>' :: rest)) =
        .ok ('/' :: ((c :: name2) ++ '>' :: rest)) [] := matchLiteral_cons1 '<' _
    have h1 : identifier ('/' :: ((c :: name2) ++ '>' :: rest)) =
        .ok ('/' :: ((c :: name2) ++ '>' :: rest)) [] := by
      rw [identifier_eq]
      rfl
    have h2 : attributes ('/' :: ((c :: name2) ++ '>' :: rest)) =
        .ok ('/' :: ((c :: name2) ++ '>' :: rest)) [] := by
      have hfail : ∃ e, right space1 attributePair
          ('/' :: ((c :: name2) ++ '>' :: rest)) = .err e := attrStep_err (by rfl)
      obtain ⟨e, he⟩ := hfail
      exact zeroOrMore_of_many (Many.nil he)
    have hES : elementStart ('<' :: '/' :: ((c :: name2) ++ '>' :: rest)) =
        .ok ('/' :: ((c :: name2) ++ '>' :: rest)) ([], []) :=
      right_ok _ _ h0 (pair_ok _ _ h1 h2)
    have hne : (c == '>') = false := spec_beq_false hc (by decide)
    have hsw : jsStartsWith ('/' :: ((c :: name2) ++ '>' :: rest))
        ['/', '>'] = false := by
      simp [jsStartsWith, List.cons_append, hne]
    simp only [elementF]
    apply whitespaceWrap_isErr (by rfl)
    apply either_isErr
    · unfold singleElement
      apply map_isErr
      unfold left
      apply map_isErr
      apply pair_isErr2 _ _ hES
      exact matchLiteral_isErr hsw
    · apply andThen_isErr
      unfold openElement
      apply map_isErr
      unfold left
      apply map_isErr
      apply pair_isErr2 _ _ hES
      exact matchLiteral_isErr rfl

lemma children_many {m : Nat}
    (ih : ∀ t : XElement, wf t = true → depth t ≤ m → ∀ r : Str,
      headNot wsChar r = true → elementF m (render t ++ r) = .ok r t) :
    ∀ (cs : List XElement) (close : Str), wfList cs = true → depthList cs ≤ m →
      headNot wsChar close = true → (∃ e, elementF m close = .err e) →
      Many (elementF m) (renderChildren cs ++ close) close cs := by
  intro cs
  induction cs with
  | nil =>
    intro close _ _ _ hfail
    obtain ⟨e, he⟩ := hfail
    exact Many.nil he
  | cons c cs2 ihl =>
    intro close hwf hdep hclose hfail
    simp only [wfList, Bool.and_eq_true] at hwf
    simp only [depthList] at hdep
    have hd1 : depth c ≤ m := le_trans (le_max_left _ _) hdep
    have hd2 : depthList cs2 ≤ m := le_trans (le_max_right _ _) hdep
    have hrest : headNot wsChar (renderChildren cs2 ++ close) = true :=
      headNot_ws_renderChildren hclose
    have hstep : elementF m (render c ++ (renderChildren cs2 ++ close)) =
        .ok (renderChildren cs2 ++ close) c := ih c hwf.1 hd1 _ hrest
    have hshape : renderChildren (c :: cs2) ++ close =
        render c ++ (renderChildren cs2 ++ close) := by
      simp [renderChildren, List.append_assoc]
    rw [hshape]
    have hlen : (renderChildren cs2 ++ close).length <
        (render c ++ (renderChildren cs2 ++ close)).length := by
      have := render_length_pos c
      simp only [List.length_append]
      omega
    exact Many.cons hstep hlen (ihl _ hwf.2 hd2 hclose hfail)

lemma render_parse :
    ∀ n : Nat, ∀ t : XElement, wf t = true → depth t ≤ n →
      ∀ rest : Str, headNot wsChar rest = true →
        elementF n (render t ++ rest) = .ok rest t := by
  intro n
  induction n with
  | zero =>
    intro t _ hd
    cases t with
    | mk name attrs cs => simp [depth] at hd
  | succ m ih =>
    intro t hwf hd rest hrest
    cases t with
    | mk name attrs cs =>
      simp only [wf, Bool.and_eq_true] at hwf
      obtain ⟨⟨⟨hname, hattrs⟩, hne⟩, hcs⟩ := hwf
      cases cs with
      | nil =>
        have hsingle : singleElement (render (XElement.mk name attrs []) ++ rest) =
            .ok rest (XElement.mk name attrs []) := by
          have hshape : render (XElement.mk name attrs []) ++ rest =
              '<' :: (name ++ (renderAttrs attrs ++ '/' :: '>' :: rest)) := by
            simp [render, List.append_assoc]
          rw [hshape]
          exact singleElement_run hname hattrs
        simp only [elementF]
        apply whitespaceWrap_run (headNot_ws_render_append _ rest) ?_ hrest
        exact either_ok1 _ _ hsingle
      | cons c cs2 =>
        have hne2 : ∃ nc ntl, name = nc :: ntl := by
          cases name with
          | nil => simp at hne
          | cons nc ntl => exact ⟨nc, ntl, rfl⟩
        obtain ⟨nc, ntl, rfl⟩ := hne2
        have hnc : specIdentChar nc = true := by
          simp only [List.all_cons, Bool.and_eq_true] at hname
          exact hname.1
        simp only [depth] at hd
        have hdep : depthList (c :: cs2) ≤ m := by omega
        have hclose_err : ∃ e, elementF m
            ('<' :: '/' :: ((nc :: ntl) ++ '>' :: rest)) = .err e :=
          elementF_err_at_close hnc
        have hMany := children_many ih (c :: cs2)
          ('<' :: '/' :: ((nc :: ntl) ++ '>' :: rest)) hcs hdep rfl hclose_err
        have hz := zeroOrMore_of_many hMany
        have hcl : closeElement (nc :: ntl)
            ('<' :: '/' :: ((nc :: ntl) ++ '>' :: rest)) = .ok rest (nc :: ntl) :=
          closeElement_run hname
        have hleft := left_ok _ _ hz hcl
        have hopen : openElement ('<' :: ((nc :: ntl) ++ (renderAttrs attrs ++
            '>' :: (renderChildren (c :: cs2) ++
              '<' :: '/' :: ((nc :: ntl) ++ '>' :: rest))))) =
            .ok (renderChildren (c :: cs2) ++
              '<' :: '/' :: ((nc :: ntl) ++ '>' :: rest))
              (XElement.mk (nc :: ntl) attrs []) :=
          openElement_run hname hattrs
        have hsf : ∃ e, singleElement ('<' :: ((nc :: ntl) ++ (renderAttrs attrs ++
            '>' :: (renderChildren (c :: cs2) ++
              '<' :: '/' :: ((nc :: ntl) ++ '>' :: rest))))) = .err e :=
          singleElement_err_at_open hname hattrs
        obtain ⟨es, hes⟩ := hsf
        have hshape : render (XElement.mk (nc :: ntl) attrs (c :: cs2)) ++ rest =
            '<' :: ((nc :: ntl) ++ (renderAttrs attrs ++
            '>' :: (renderChildren (c :: cs2) ++
              '<' :: '/' :: ((nc :: ntl) ++ '>' :: rest)))) := by
          simp [render, List.append_assoc]
        simp only [elementF]
        rw [hshape]
        apply whitespaceWrap_run (by rfl) ?_ hrest
        rw [either_of_err _ _ hes, andThen_ok _ _ hopen]
        exact map_ok _ _ hleft

lemma renderChildren_mem_le {cs : List XElement} {c : XElement} (h : c ∈ cs) :
    (render c).length ≤ (renderChildren cs).length := by
  induction cs with
  | nil => cases h
  | cons a l ih =>
    rcases List.mem_cons.mp h with rfl | h2
    · simp [renderChildren]
    · calc (render c).length ≤ (renderChildren l).length := ih h2
        _ ≤ (renderChildren (a :: l)).length := by simp [renderChildren]

lemma depthList_attained (cs : List XElement) :
    cs = [] ∨ ∃ c, c ∈ cs ∧ depthList cs = depth c := by
  induction cs with
  | nil => exact .inl rfl
  | cons a l ih =>
    right
    rcases ih with rfl | ⟨c, hc, hd⟩
    · exact ⟨a, by simp, by simp [depthList]⟩
    · rcases Nat.le_total (depth a) (depthList l) with hle | hle
      · refine ⟨c, by simp [hc], ?_⟩
        have hmax : depthList (a :: l) = depthList l := by
          simp [depthList, Nat.max_eq_right hle]
        rw [hmax, hd]
      · refine ⟨a, by simp, ?_⟩
        simp [depthList, Nat.max_eq_left hle]

lemma depth_le_render :
    ∀ k : Nat, ∀ t : XElement, depth t ≤ k → depth t ≤ (render t).length := by
  intro k
  induction k with
  | zero =>
    intro t h
    cases t with
    | mk name attrs cs => simp [depth] at h
  | succ m ih =>
    intro t h
    cases t with
    | mk name attrs cs =>
      cases cs with
      | nil => simp [depth, depthList, render]
      | cons c cs2 =>
        rcases depthList_attained (c :: cs2) with habs | ⟨c0, hc0, hd0⟩
        · cases habs
        · have hdc0 : depth c0 ≤ m := by
            simp only [depth] at h
            omega
          have h1 : depth c0 ≤ (render c0).length := ih c0 hdc0
          have h2 : (render c0).length ≤ (renderChildren (c :: cs2)).length :=
            renderChildren_mem_le hc0
          have h3 : (renderChildren (c :: cs2)).length + 1 ≤
              (render (XElement.mk name attrs (c :: cs2))).length := by
            simp [render]
            omega
          simp only [depth, hd0]
          omega

lemma element_render_parse {t : XElement} (h : wf t = true) :
    element (render t) = .ok [] t := by
  unfold element
  have hd : depth t ≤ (render t).length + 1 := by
    have := depth_le_render (depth t) t le_rfl
    omega
  have := render_parse ((render t).length + 1) t h hd [] rfl
  simpa using this

lemma takeDrop_eq {p : Char → Bool} :
    ∀ s : Str, s.takeWhile p ++ s.dropWhile p = s := by
  intro s
  induction s with
  | nil => rfl
  | cons c t ih =>
    by_cases h : p c = true
    · simp [List.takeWhile, List.dropWhile, h, ih]
    · simp only [Bool.not_eq_true] at h
      simp [List.takeWhile, List.dropWhile, h]

lemma zeroOrMoreAux_err_step {A : Type} (p : Parser A) (m : Nat)
    {s e : Str} (acc : List A) (h : p s = .err e) :
    zeroOrMoreAux p (m + 1) s acc = .ok s acc.reverse := by
  simp [zeroOrMoreAux, h]

lemma zeroOrMoreAux_ok_step {A : Type} (p : Parser A) (m : Nat)
    {s n1 : Str} {r1 : A} (acc : List A) (h : p s = .ok n1 r1) :
    zeroOrMoreAux p (m + 1) s acc = zeroOrMoreAux p m n1 (r1 :: acc) := by
  simp [zeroOrMoreAux, h]

lemma oneOrMore_err {A : Type} (p : Parser A) {s e : Str} (h : p s = .err e) :
    oneOrMore p s = .err (squote :: s ++ squote :: (" not matched".toList)) := by
  simp [oneOrMore, h]

lemma oneOrMore_ok_step {A : Type} (p : Parser A) {s n1 : Str} {r1 : A}
    (h : p s = .ok n1 r1) :
    oneOrMore p s = zeroOrMoreAux p s.length n1 [r1] := by
  simp [oneOrMore, h]

lemma map_ok_inv {A B : Type} {p : Parser A} {f : A → B} {s next : Str} {b : B}
    (h : map p f s = .ok next b) : ∃ r, p s = .ok next r ∧ f r = b := by
  cases hp : p s with
  | err e => rw [map_err p f hp] at h; simp at h
  | ok n0 r0 =>
    rw [map_ok p f hp] at h
    simp only [PResult.ok.injEq] at h
    obtain ⟨hn, hf⟩ := h
    subst hn
    exact ⟨r0, rfl, hf⟩

lemma pair_ok_inv {A B : Type} {p1 : Parser A} {p2 : Parser B}
    {s next : Str} {b : A × B}
    (h : pair p1 p2 s = .ok next b) :
    ∃ n1, p1 s = .ok n1 b.1 ∧ p2 n1 = .ok next b.2 := by
  cases h1 : p1 s with
  | err e => rw [pair_err1 p1 p2 h1] at h; simp at h
  | ok n1 r1 =>
    cases h2 : p2 n1 with
    | err e => rw [pair_err2 p1 p2 h1 h2] at h; simp at h
    | ok n2 r2 =>
      rw [pair_ok p1 p2 h1 h2] at h
      simp only [PResult.ok.injEq] at h
      obtain ⟨hn, hb⟩ := h
      subst hn
      subst hb
      exact ⟨n1, rfl, h2⟩

lemma right_ok_inv {A B : Type} {p1 : Parser A} {p2 : Parser B}
    {s next : Str} {b : B}
    (h : right p1 p2 s = .ok next b) :
    ∃ n1 r1, p1 s = .ok n1 r1 ∧ p2 n1 = .ok next b := by
  obtain ⟨pr, hpr, hb⟩ := map_ok_inv h
  obtain ⟨n1, h1, h2⟩ := pair_ok_inv hpr
  exact ⟨n1, pr.1, h1, by rw [← hb] at *; exact h2⟩

lemma left_ok_inv {A B : Type} {p1 : Parser A} {p2 : Parser B}
    {s next : Str} {b : A}
    (h : left p1 p2 s = .ok next b) :
    ∃ n1 r2, p1 s = .ok n1 b ∧ p2 n1 = .ok next r2 := by
  obtain ⟨pr, hpr, hb⟩ := map_ok_inv h
  obtain ⟨n1, h1, h2⟩ := pair_ok_inv hpr
  exact ⟨n1, pr.2, by rw [← hb] at *; exact h1, h2⟩

lemma pred_ok_inv {A : Type} {p : Parser A} {q : A → Bool} {s next : Str} {r : A}
    (h : pred p q s = .ok next r) : p s = .ok next r ∧ q r = true := by
  cases hp : p s with
  | err e => rw [pred_err p q hp] at h; simp at h
  | ok n0 r0 =>
    by_cases hq : q r0 = true
    · rw [pred_ok p q hp hq] at h
      simp only [PResult.ok.injEq] at h
      obtain ⟨hn, hr⟩ := h
      subst hn
      subst hr
      exact ⟨rfl, hq⟩
    · simp only [Bool.not_eq_true] at hq
      rw [pred_rej p q hp hq] at h
      simp at h

lemma identifier_ok_inv {s next r : Str}
    (h : identifier s = .ok next r) :
    r = s.takeWhile specIdentChar ∧ next = s.dropWhile specIdentChar := by
  rw [identifier_eq] at h
  simp only [PResult.ok.injEq] at h
  exact ⟨h.2.symm, h.1.symm⟩

/-- next is a suffix of s: some prefix precedes it. -/
def SuffixOf (next s : Str) : Prop := ∃ pre, pre ++ next = s

/-- The cursor invariant of the specification: every success of the parser
returns a remaining cursor that is a suffix of the input, hence of length at
most the input length. -/
def Suffixing {A : Type} (p : Parser A) : Prop :=
  ∀ s next r, p s = .ok next r → SuffixOf next s ∧ next.length ≤ s.length

lemma suffixOf_refl (s : Str) : SuffixOf s s := ⟨[], rfl⟩

lemma suffixOf_trans {a b c : Str} (h1 : SuffixOf a b) (h2 : SuffixOf b c) :
    SuffixOf a c := by
  obtain ⟨p1, rfl⟩ := h1
  obtain ⟨p2, rfl⟩ := h2
  exact ⟨p2 ++ p1, by rw [List.append_assoc]⟩

lemma suffixOf_length {a b : Str} (h : SuffixOf a b) : a.length ≤ b.length := by
  obtain ⟨pre, rfl⟩ := h
  simp

lemma suffixing_intro {A : Type} {p : Parser A}
    (h : ∀ s next r, p s = .ok next r → SuffixOf next s) : Suffixing p :=
  fun s next r hp => ⟨h s next r hp, suffixOf_length (h s next r hp)⟩

lemma suffixing_anyChar : Suffixing anyChar := by
  apply suffixing_intro
  intro s next r h
  cases s with
  | nil => simp [anyChar] at h
  | cons c t =>
    simp only [anyChar, PResult.ok.injEq] at h
    exact ⟨[c], by simp [h.1]⟩

lemma suffixing_matchLiteral (lit : Str) : Suffixing (matchLiteral lit) := by
  apply suffixing_intro
  intro s next r h
  have := (matchLiteral_ok_iff lit s next r).mp h
  exact ⟨lit, this.1.symm⟩

lemma suffixing_identifier : Suffixing identifier := by
  apply suffixing_intro
  intro s next r h
  obtain ⟨_, hnext⟩ := identifier_ok_inv h
  exact ⟨s.takeWhile specIdentChar, by rw [hnext]; exact takeDrop_eq s⟩

lemma suffixing_map {A B : Type} (p : Parser A) (f : A → B)
    (hp : Suffixing p) : Suffixing (map p f) := by
  intro s next r h
  obtain ⟨r0, h0, _⟩ := map_ok_inv h
  exact hp s next r0 h0

lemma suffixing_pair {A B : Type} (p1 : Parser A) (p2 : Parser B)
    (h1 : Suffixing p1) (h2 : Suffixing p2) : Suffixing (pair p1 p2) := by
  intro s next r h
  obtain ⟨n1, ha, hb⟩ := pair_ok_inv h
  obtain ⟨hs1, hl1⟩ := h1 s n1 r.1 ha
  obtain ⟨hs2, hl2⟩ := h2 n1 next r.2 hb
  exact ⟨suffixOf_trans hs2 hs1, le_trans hl2 hl1⟩

lemma suffixing_left {A B : Type} (p1 : Parser A) (p2 : Parser B)
    (h1 : Suffixing p1) (h2 : Suffixing p2) : Suffixing (left p1 p2) :=
  suffixing_map _ _ (suffixing_pair p1 p2 h1 h2)

lemma suffixing_right {A B : Type} (p1 : Parser A) (p2 : Parser B)
    (h1 : Suffixing p1) (h2 : Suffixing p2) : Suffixing (right p1 p2) :=
  suffixing_map _ _ (suffixing_pair p1 p2 h1 h2)

lemma suffixing_pred {A : Type} (p : Parser A) (q : A → Bool)
    (hp : Suffixing p) : Suffixing (pred p q) := by
  intro s next r h
  obtain ⟨h0, _⟩ := pred_ok_inv h
  exact hp s next r h0

lemma suffixing_either {A : Type} (p1 p2 : Parser A)
    (h1 : Suffixing p1) (h2 : Suffixing p2) : Suffixing (either p1 p2) := by
  intro s next r h
  cases hp : p1 s with
  | err e => rw [either_of_err p1 p2 hp] at h; exact h2 s next r h
  | ok n0 r0 =>
    rw [either_ok1 p1 p2 hp] at h
    simp only [PResult.ok.injEq] at h
    obtain ⟨hn, hr⟩ := h
    subst hn
    subst hr
    exact h1 _ _ _ hp

lemma suffixing_andThen {A B : Type} (p : Parser A) (f : A → Parser B)
    (hp : Suffixing p) (hf : ∀ a, Suffixing (f a)) : Suffixing (andThen p f) := by
  intro s next r h
  cases h1 : p s with
  | err e => rw [andThen_err p f h1] at h; simp at h
  | ok n1 r1 =>
    rw [andThen_ok p f h1] at h
    obtain ⟨hs1, hl1⟩ := hp s n1 r1 h1
    obtain ⟨hs2, hl2⟩ := hf r1 n1 next r h
    exact ⟨suffixOf_trans hs2 hs1, le_trans hl2 hl1⟩

lemma suffixing_zeroOrMoreAux {A : Type} {p : Parser A} (hp : Suffixing p) :
    ∀ (fuel : Nat) (s : Str) (acc : List A) (next : Str) (l : List A),
      zeroOrMoreAux p fuel s acc = .ok next l →
        SuffixOf next s ∧ next.length ≤ s.length := by
  intro fuel
  induction fuel with
  | zero =>
    intro s acc next l h
    simp only [zeroOrMoreAux, PResult.ok.injEq] at h
    rw [← h.1]
    exact ⟨suffixOf_refl s, le_rfl⟩
  | succ m ih =>
    intro s acc next l h
    cases h1 : p s with
    | err e =>
      rw [zeroOrMoreAux_err_step p m acc h1] at h
      simp only [PResult.ok.injEq] at h
      rw [← h.1]
      exact ⟨suffixOf_refl s, le_rfl⟩
    | ok n1 r1 =>
      rw [zeroOrMoreAux_ok_step p m acc h1] at h
      obtain ⟨hs1, hl1⟩ := hp s n1 r1 h1
      obtain ⟨hs2, hl2⟩ := ih n1 (r1 :: acc) next l h
      exact ⟨suffixOf_trans hs2 hs1, le_trans hl2 hl1⟩

lemma suffixing_zeroOrMore {A : Type} (p : Parser A) (hp : Suffixing p) :
    Suffixing (zeroOrMore p) := by
  intro s next l h
  exact suffixing_zeroOrMoreAux hp (s.length + 1) s [] next l h

lemma suffixing_oneOrMore {A : Type} (p : Parser A) (hp : Suffixing p) :
    Suffixing (oneOrMore p) := by
  intro s next l h
  cases h1 : p s with
  | err e => rw [oneOrMore_err p h1] at h; simp at h
  | ok n1 r1 =>
    rw [oneOrMore_ok_step p h1] at h
    obtain ⟨hs1, hl1⟩ := hp s n1 r1 h1
    obtain ⟨hs2, hl2⟩ := suffixing_zeroOrMoreAux hp s.length n1 [r1] next l h
    exact ⟨suffixOf_trans hs2 hs1, le_trans hl2 hl1⟩

lemma suffixing_whitespaceChar : Suffixing whitespaceChar :=
  suffixing_pred _ _ suffixing_anyChar

lemma suffixing_space0 : Suffixing space0 :=
  suffixing_zeroOrMore _ suffixing_whitespaceChar

lemma suffixing_space1 : Suffixing space1 :=
  suffixing_oneOrMore _ suffixing_whitespaceChar

lemma suffixing_quotedString : Suffixing quotedString :=
  suffixing_map _ _ (suffixing_right _ _ (suffixing_matchLiteral _)
    (suffixing_left _ _
      (suffixing_zeroOrMore _ (suffixing_pred _ _ suffixing_anyChar))
      (suffixing_matchLiteral _)))

lemma suffixing_attributePair : Suffixing attributePair :=
  suffixing_pair _ _ suffixing_identifier
    (suffixing_right _ _ (suffixing_matchLiteral _) suffixing_quotedString)

lemma suffixing_attributes : Suffixing attributes :=
  suffixing_zeroOrMore _
    (suffixing_right _ _ suffixing_space1 suffixing_attributePair)

lemma suffixing_elementStart : Suffixing elementStart :=
  suffixing_right _ _ (suffixing_matchLiteral _)
    (suffixing_pair _ _ suffixing_identifier suffixing_attributes)

lemma suffixing_openElement : Suffixing openElement :=
  suffixing_map _ _
    (suffixing_left _ _ suffixing_elementStart (suffixing_matchLiteral _))

lemma suffixing_singleElement : Suffixing singleElement :=
  suffixing_map _ _
    (suffixing_left _ _ suffixing_elementStart (suffixing_matchLiteral _))

lemma suffixing_closeElement (name : Str) : Suffixing (closeElement name) :=
  suffixing_pred _ _ (suffixing_right _ _ (suffixing_matchLiteral _)
    (suffixing_left _ _ suffixing_identifier (suffixing_matchLiteral _)))

lemma suffixing_whitespaceWrap {A : Type} (p : Parser A) (hp : Suffixing p) :
    Suffixing (whitespaceWrap p) :=
  suffixing_right _ _ suffixing_space0
    (suffixing_left _ _ hp suffixing_space0)

lemma suffixing_elementF : ∀ n : Nat, Suffixing (elementF n) := by
  intro n
  induction n with
  | zero =>
    intro s next r h
    simp [elementF] at h
  | succ m ih =>
    simp only [elementF]
    apply suffixing_whitespaceWrap
    apply suffixing_either
    · exact suffixing_singleElement
    · apply suffixing_andThen _ _ suffixing_openElement
      intro el
      apply suffixing_map
      apply suffixing_left
      · exact suffixing_zeroOrMore _ ih
      · exact suffixing_closeElement _

lemma suffixing_element : Suffixing element := by
  intro s next r h
  exact suffixing_elementF (s.length + 1) s next r h

set_option maxRecDepth 10000 in
/-- The whitespace wrapped, multi line document of the nested test case. -/
def c1doc : Str :=
  ("\n        <top label=\"Top\">\n          <semi-bottom label=\"Bottom\"/>\n          <middle>\n            <bottom label=\"Another bottom\"/>\n          </middle>\n        </top>\n        ".toList)

set_option maxRecDepth 100000 in
/-- C1: parsing the whitespace wrapped, multi line nested document with the
top level element parser succeeds and yields a node named top with attribute
list label=Top and exactly two children in order: a childless semi-bottom
node with attributes label=Bottom, and a middle node whose single child is a
childless bottom node with attributes label=Another bottom — full structural
equality of the whole tree, with the whole input consumed. -/
theorem claim_C1 :
    element c1doc =
      .ok [] (XElement.mk ("top".toList)
        [(("label".toList), ("Top".toList))]
        [XElement.mk ("semi-bottom".toList)
            [(("label".toList), ("Bottom".toList))] [],
         XElement.mk ("middle".toList) []
            [XElement.mk ("bottom".toList)
              [(("label".toList), ("Another bottom".toList))] []]]) := rfl

/-- C10: because identifier succeeds on a zero length match, the grammar
accepts elements with an empty name: singleElement on the input consisting
of the three characters less-than, slash, greater-than succeeds, producing
an element node with empty name, empty attribute list and no children, with
empty remaining input — and the top level element parser likewise accepts
that input. -/
theorem claim_C10 :
    singleElement ("</>".toList) = .ok [] (XElement.mk [] [] []) ∧
    element ("</>".toList) = .ok [] (XElement.mk [] [] []) := ⟨rfl, rfl⟩

/-- C4: for every input string, identifier succeeds, consuming exactly the
maximal leading run of ASCII letters and hyphens — no digits, no
underscores — returning that run as the result and the rest of the input as
the remaining cursor; when zero leading characters qualify it still succeeds
with the empty string and an unchanged cursor. In particular on the input
abc-def space asdf it returns abc-def with remaining input space asdf. -/
theorem claim_C4 (s : Str) :
    identifier s = .ok (s.dropWhile specIdentChar) (s.takeWhile specIdentChar) ∧
    s.takeWhile specIdentChar ++ s.dropWhile specIdentChar = s ∧
    (s.takeWhile specIdentChar).all specIdentChar = true ∧
    (∀ c rest2, s.dropWhile specIdentChar = c :: rest2 →
      specIdentChar c = false) ∧
    identifier ("abc-def asdf".toList) =
      .ok (" asdf".toList) ("abc-def".toList) := by
  refine ⟨identifier_eq s, takeDrop_eq s, all_takeWhile s, ?_, rfl⟩
  intro c rest2 h
  have h2 : headNot specIdentChar (s.dropWhile specIdentChar) = true :=
    headNot_of_dropWhile s
  rw [h] at h2
  simpa [headNot] using h2

/-- C4 witness: the theorem applied at a concrete input, discharging the
inner hypothesis about the head of the remainder. -/
theorem claim_C4_witness : specIdentChar ' ' = false :=
  (claim_C4 ("abc-def asdf".toList)).2.2.2.1 ' ' ("asdf".toList) rfl

/-- C5: for all strings lit and s, matchLiteral lit applied to s succeeds if
and only if s starts with lit; on success the result value is the empty
string and the remaining cursor is s with the lit prefix removed; otherwise
it fails with an error naming both the expected literal and the actual
input. -/
theorem claim_C5 (lit s : Str) :
    (∀ rest2, s = lit ++ rest2 → matchLiteral lit s = .ok rest2 []) ∧
    ((∀ rest2, s ≠ lit ++ rest2) → matchLiteral lit s =
      .err (("no match for: ".toList) ++ squote :: lit ++
        squote :: (" in: ".toList) ++ s)) ∧
    (∀ next r, matchLiteral lit s = .ok next r → (s = lit ++ next ∧ r = [])) := by
  refine ⟨?_, ?_, ?_⟩
  · rintro rest2 rfl
    exact matchLiteral_ok lit rest2
  · intro h
    have hsw : jsStartsWith s lit = false := by
      by_contra hc
      simp only [Bool.not_eq_false] at hc
      obtain ⟨rest2, hr⟩ := jsStartsWith_ex s lit hc
      exact h rest2 hr
    unfold matchLiteral
    rw [hsw]
    simp
  · intro next r h
    exact (matchLiteral_ok_iff lit s next r).mp h

/-- C5 witness: matchLiteral at concrete inputs, one success and one
failure, with all hypotheses discharged. -/
theorem claim_C5_witness :
    matchLiteral ("ab".toList) ("abc".toList) = .ok ("c".toList) [] ∧
    matchLiteral ("ab".toList) ("xyz".toList) =
      .err (("no match for: ".toList) ++ squote :: ("ab".toList) ++
        squote :: (" in: ".toList) ++ ("xyz".toList)) :=
  ⟨(claim_C5 ("ab".toList) ("abc".toList)).1 ("c".toList) rfl,
   (claim_C5 ("ab".toList) ("xyz".toList)).2.1
     (by intro rest2 h; simp at h)⟩

/-- C6: zeroOrMore never returns a failure outcome, and zero matches is a
success with the empty sequence and the original cursor; oneOrMore fails
exactly when the inner parser fails on the initial cursor, in which case its
error names the original input; when the first application of the inner
parser succeeds, oneOrMore behaves identically to zeroOrMore. -/
theorem claim_C6 {A : Type} (p : Parser A) (s : Str) :
    (∃ next l, zeroOrMore p s = .ok next l) ∧
    (∀ e0, p s = .err e0 → zeroOrMore p s = .ok s []) ∧
    (∀ e0, p s = .err e0 → oneOrMore p s =
      .err (squote :: s ++ squote :: (" not matched".toList))) ∧
    (∀ e, oneOrMore p s = .err e → ∃ e0, p s = .err e0) ∧
    (∀ next r, p s = .ok next r → oneOrMore p s = zeroOrMore p s) := by
  refine ⟨?_, ?_, ?_, ?_, ?_⟩
  · exact zeroOrMoreAux_never_err p (s.length + 1) s []
  · intro e0 he
    unfold zeroOrMore
    rw [zeroOrMoreAux_err_step p s.length [] he]
    rfl
  · intro e0 he
    exact oneOrMore_err p he
  · intro e h
    cases hp : p s with
    | err e0 => exact ⟨e0, rfl⟩
    | ok n1 r1 =>
      rw [oneOrMore_ok_step p hp] at h
      obtain ⟨n2, l2, h2⟩ := zeroOrMoreAux_never_err p s.length n1 [r1]
      rw [h2] at h
      simp at h
  · intro next r hp
    rw [oneOrMore_ok_step p hp]
    unfold zeroOrMore
    rw [zeroOrMoreAux_ok_step p s.length [] hp]

/-- C6 witness: the theorem applied to anyChar at concrete inputs. -/
theorem claim_C6_witness :
    oneOrMore anyChar ("ab".toList) = zeroOrMore anyChar ("ab".toList) ∧
    oneOrMore anyChar [] =
      .err (squote :: [] ++ squote :: (" not matched".toList)) ∧
    zeroOrMore anyChar [] = .ok [] [] :=
  ⟨(claim_C6 anyChar ("ab".toList)).2.2.2.2 ("b".toList) 'a' rfl,
   (claim_C6 anyChar []).2.2.1 [] rfl,
   (claim_C6 anyChar []).2.1 [] rfl⟩

/-- C8 counterexample: the claim says every sequencing combinator forwards
the first sub-parser failure verbatim, but map wraps it: anyChar on empty
input fails with the empty error text, while map of anyChar on the same
input fails with the text bad: followed by the JSON serialization of the
failure record — a different, nonempty error text. -/
theorem claim_C8_counterexample :
    anyChar [] = .err [] ∧
    map anyChar (fun c => c) [] =
      .err (("bad: \x7b\"error\":\"\"\x7d").toList) ∧
    ("bad: \x7b\"error\":\"\"\x7d").toList ≠ ([] : Str) :=
  ⟨rfl, rfl, by decide⟩

/-- C8 (amended): map, pair and pred do not forward a sub-parser failure
verbatim — each wraps it as the text bad: followed by the JSON serialization
of the failure record, and left and right, built from pair and map, wrap it
twice; andThen forwards the first failure verbatim; oneOrMore substitutes
its own message naming the original input. -/
theorem claim_C8 :
    (∀ (A B : Type) (p : Parser A) (f : A → B) (s e : Str),
      p s = .err e → map p f s = .err (badWrap e)) ∧
    (∀ (A B : Type) (p1 : Parser A) (p2 : Parser B) (s e : Str),
      p1 s = .err e → pair p1 p2 s = .err (badWrap e)) ∧
    (∀ (A B : Type) (p1 : Parser A) (p2 : Parser B) (s n1 e : Str) (r1 : A),
      p1 s = .ok n1 r1 → p2 n1 = .err e → pair p1 p2 s = .err (badWrap e)) ∧
    (∀ (A B : Type) (p1 : Parser A) (p2 : Parser B) (s e : Str),
      p1 s = .err e → left p1 p2 s = .err (badWrap (badWrap e))) ∧
    (∀ (A B : Type) (p1 : Parser A) (p2 : Parser B) (s e : Str),
      p1 s = .err e → right p1 p2 s = .err (badWrap (badWrap e))) ∧
    (∀ (A : Type) (p : Parser A) (q : A → Bool) (s e : Str),
      p s = .err e → pred p q s = .err (badWrap e)) ∧
    (∀ (A B : Type) (p : Parser A) (f : A → Parser B) (s e : Str),
      p s = .err e → andThen p f s = .err e) ∧
    (∀ (A : Type) (p : Parser A) (s e : Str),
      p s = .err e → oneOrMore p s =
        .err (squote :: s ++ squote :: (" not matched".toList))) := by
  refine ⟨?_, ?_, ?_, ?_, ?_, ?_, ?_, ?_⟩
  · intro A B p f s e h
    exact map_err p f h
  · intro A B p1 p2 s e h
    exact pair_err1 p1 p2 h
  · intro A B p1 p2 s n1 e r1 h1 h2
    exact pair_err2 p1 p2 h1 h2
  · intro A B p1 p2 s e h
    exact map_err _ _ (pair_err1 p1 p2 h)
  · intro A B p1 p2 s e h
    exact map_err _ _ (pair_err1 p1 p2 h)
  · intro A p q s e h
    exact pred_err p q h
  · intro A B p f s e h
    exact andThen_err p f h
  · intro A p s e h
    exact oneOrMore_err p h

/-- C8 witness: the amended propagation facts at concrete inputs. -/
theorem claim_C8_witness :
    map anyChar (fun c => c) [] = .err (badWrap []) ∧
    andThen anyChar (fun _ => anyChar) [] = .err [] :=
  ⟨claim_C8.1 Char Char anyChar (fun c => c) [] [] rfl,
   claim_C8.2.2.2.2.2.2.1 Char Char anyChar (fun _ => anyChar) [] [] rfl⟩

/-- C3 counterexample: the claim quantifies over every tree whose attribute
values contain no double quote, but two such trees fail the round trip: the
single node named 1 — a digit, not an identifier character — and the parent
with the empty name and one empty named child, whose closing tag is itself
parsable as an element; both render to markup whose re-parse fails. -/
theorem claim_C3_counterexample :
    ((XElement.mk ("1".toList) [] []).attrs.all
      (fun a => a.2.all (fun c => c != '"'))) = true ∧
    (element (render (XElement.mk ("1".toList) [] []))).isOk = false ∧
    (element (render (XElement.mk [] [] [XElement.mk [] [] []]))).isOk = false :=
  ⟨rfl, rfl, rfl⟩

/-- C3 (amended): for every element tree in which every element name and
every attribute name is a run of ASCII letters and hyphens, every attribute
value contains no double quote, and every element that has children has a
nonempty name, rendering the tree to its canonical markup text and
re-parsing that text with the top level element parser succeeds, consumes
the whole input, and reproduces a tree equal to the original. -/
theorem claim_C3 (t : XElement) (h : wf t = true) :
    element (render t) = .ok [] t :=
  element_render_parse h

/-- C3 witness: the round trip at a concrete nested tree with attributes. -/
theorem claim_C3_witness :
    element (render (XElement.mk ("a".toList)
      [(("x-y".toList), ("q r".toList))]
      [XElement.mk ("b".toList) [] [],
       XElement.mk ("c".toList) [] [XElement.mk ("d".toList) [] []]])) =
    .ok [] (XElement.mk ("a".toList)
      [(("x-y".toList), ("q r".toList))]
      [XElement.mk ("b".toList) [] [],
       XElement.mk ("c".toList) [] [XElement.mk ("d".toList) [] []]]) :=
  claim_C3 _ (by decide)

/-- C2: for every expected name, closeElement succeeds exactly on inputs
that start with less-than slash, then an identifier run, then greater-than,
with the identifier equal to the expected name, character for character;
consequently the element parser fails on the mismatched pair of tags a and
b rather than producing a tree. -/
theorem claim_C2 :
    (∀ name s next r, closeElement name s = .ok next r ↔
      (r = name ∧ name.all specIdentChar = true ∧
        s = '<' :: '/' :: (name ++ '>' :: next))) ∧
    (element ("<a></b>".toList)).isOk = false := by
  refine ⟨?_, rfl⟩
  intro name s next r
  constructor
  · intro h
    unfold closeElement at h
    obtain ⟨hP, hq⟩ := pred_ok_inv h
    have hr : r = name := by simpa using hq
    obtain ⟨n1, r1, hm1, hl⟩ := right_ok_inv hP
    obtain ⟨hs1, _⟩ := (matchLiteral_ok_iff _ _ _ _).mp hm1
    obtain ⟨n2, r2, hid, hm2⟩ := left_ok_inv hl
    obtain ⟨hrtake, hn2⟩ := identifier_ok_inv hid
    obtain ⟨hn2eq, _⟩ := (matchLiteral_ok_iff _ _ _ _).mp hm2
    have hdrop : n1.dropWhile specIdentChar = '>' :: next := by
      rw [← hn2, hn2eq]
      rfl
    have hsplit : n1.takeWhile specIdentChar ++ n1.dropWhile specIdentChar = n1 :=
      takeDrop_eq n1
    have hn1 : n1 = r ++ '>' :: next := by
      rw [← hsplit, ← hrtake, hdrop]
    refine ⟨hr, ?_, ?_⟩
    · rw [← hr, hrtake]
      exact all_takeWhile n1
    · rw [hs1, hn1, hr]
      rfl
  · rintro ⟨rfl, hall, rfl⟩
    exact closeElement_run hall

/-- C2 witness: the characterization applied at a concrete closing tag. -/
theorem claim_C2_witness :
    closeElement ("ab".toList) ("</ab>x".toList) =
      .ok ("x".toList) ("ab".toList) :=
  (claim_C2.1 ("ab".toList) ("</ab>x".toList) ("x".toList) ("ab".toList)).mpr
    ⟨rfl, by decide, by decide⟩

/-- C9: quotedString succeeds exactly on inputs that start with a double
quote, then zero or more non quote characters, then a closing double quote;
on success the result is those inner characters joined verbatim with no
escape decoding — hence the result never contains a double quote; and on
the quoted word hello it returns hello with empty remaining input. -/
theorem claim_C9 :
    (∀ s next r, quotedString s = .ok next r ↔
      (s = '"' :: (r ++ '"' :: next) ∧ r.all (fun c => c != '"') = true)) ∧
    (∀ s next r, quotedString s = .ok next r → ∀ c, c ∈ r → c ≠ '"') ∧
    quotedString ("\"hello\"".toList) = .ok [] ("hello".toList) := by
  have hiff : ∀ s next r, quotedString s = .ok next r ↔
      (s = '"' :: (r ++ '"' :: next) ∧ r.all (fun c => c != '"') = true) := by
    intro s next r
    constructor
    · intro h
      unfold quotedString at h
      obtain ⟨r0, hP, hid⟩ := map_ok_inv h
      have hr0 : r0 = r := hid
      subst hr0
      obtain ⟨n1, r1, hm1, hl⟩ := right_ok_inv hP
      obtain ⟨hs1, _⟩ := (matchLiteral_ok_iff _ _ _ _).mp hm1
      obtain ⟨n2, r2, hz, hm2⟩ := left_ok_inv hl
      obtain ⟨hn2eq, _⟩ := (matchLiteral_ok_iff _ _ _ _).mp hm2
      rw [zeroOrMore_pred_anyChar] at hz
      simp only [PResult.ok.injEq] at hz
      obtain ⟨hn2, hr0⟩ := hz
      have hdrop : n1.dropWhile (fun x => x != '"') = '"' :: next := by
        rw [hn2, hn2eq]
        rfl
      have hsplit : n1.takeWhile (fun x => x != '"') ++
          n1.dropWhile (fun x => x != '"') = n1 := takeDrop_eq n1
      have hn1 : n1 = r0 ++ '"' :: next := by
        rw [← hsplit, hr0, hdrop]
      refine ⟨?_, ?_⟩
      · rw [hs1, hn1]
        rfl
      · rw [← hr0]
        exact all_takeWhile n1
    · rintro ⟨rfl, hall⟩
      exact quotedString_run hall
  refine ⟨hiff, ?_, rfl⟩
  intro s next r h c hc
  have hall := ((hiff s next r).mp h).2
  rw [List.all_eq_true] at hall
  have hb := hall c hc
  simpa using hb

/-- C9 witness: the characterization applied at a concrete quoted string
with nonempty remaining input. -/
theorem claim_C9_witness :
    quotedString ("\"ab\"x".toList) = .ok ("x".toList) ("ab".toList) :=
  (claim_C9.1 ("\"ab\"x".toList) ("x".toList) ("ab".toList)).mpr
    ⟨by decide, by decide⟩

/-- C7: every parser exposed by the library — the primitives, the parsers
each combinator builds from suffix preserving parsers, and every grammar
layer parser — returns, whenever it succeeds, a remaining cursor that is a
suffix of the input string, so its length is at most the input length. -/
theorem claim_C7 :
    Suffixing anyChar ∧
    (∀ lit : Str, Suffixing (matchLiteral lit)) ∧
    Suffixing identifier ∧
    (∀ (A B : Type) (p : Parser A) (f : A → B),
      Suffixing p → Suffixing (map p f)) ∧
    (∀ (A B : Type) (p1 : Parser A) (p2 : Parser B),
      Suffixing p1 → Suffixing p2 → Suffixing (pair p1 p2)) ∧
    (∀ (A B : Type) (p1 : Parser A) (p2 : Parser B),
      Suffixing p1 → Suffixing p2 → Suffixing (left p1 p2)) ∧
    (∀ (A B : Type) (p1 : Parser A) (p2 : Parser B),
      Suffixing p1 → Suffixing p2 → Suffixing (right p1 p2)) ∧
    (∀ (A : Type) (p1 p2 : Parser A),
      Suffixing p1 → Suffixing p2 → Suffixing (either p1 p2)) ∧
    (∀ (A : Type) (p : Parser A) (q : A → Bool),
      Suffixing p → Suffixing (pred p q)) ∧
    (∀ (A : Type) (p : Parser A), Suffixing p → Suffixing (zeroOrMore p)) ∧
    (∀ (A : Type) (p : Parser A), Suffixing p → Suffixing (oneOrMore p)) ∧
    (∀ (A B : Type) (p : Parser A) (f : A → Parser B),
      Suffixing p → (∀ a, Suffixing (f a)) → Suffixing (andThen p f)) ∧
    (∀ (A : Type) (p : Parser A), Suffixing p → Suffixing (whitespaceWrap p)) ∧
    Suffixing whitespaceChar ∧ Suffixing space0 ∧ Suffixing space1 ∧
    Suffixing quotedString ∧ Suffixing attributePair ∧ Suffixing attributes ∧
    Suffixing elementStart ∧ Suffixing openElement ∧ Suffixing singleElement ∧
    (∀ name : Str, Suffixing (closeElement name)) ∧
    (∀ n : Nat, Suffixing (elementF n)) ∧ Suffixing element :=
  ⟨suffixing_anyChar, suffixing_matchLiteral, suffixing_identifier,
   fun _ _ p f hp => suffixing_map p f hp,
   fun _ _ p1 p2 h1 h2 => suffixing_pair p1 p2 h1 h2,
   fun _ _ p1 p2 h1 h2 => suffixing_left p1 p2 h1 h2,
   fun _ _ p1 p2 h1 h2 => suffixing_right p1 p2 h1 h2,
   fun _ p1 p2 h1 h2 => suffixing_either p1 p2 h1 h2,
   fun _ p q hp => suffixing_pred p q hp,
   fun _ p hp => suffixing_zeroOrMore p hp,
   fun _ p hp => suffixing_oneOrMore p hp,
   fun _ _ p f hp hf => suffixing_andThen p f hp hf,
   fun _ p hp => suffixing_whitespaceWrap p hp,
   suffixing_whitespaceChar, suffixing_space0, suffixing_space1,
   suffixing_quotedString, suffixing_attributePair, suffixing_attributes,
   suffixing_elementStart, suffixing_openElement, suffixing_singleElement,
   suffixing_closeElement, suffixing_elementF, suffixing_element⟩

/-- C7 witness: the identifier component of the invariant at a concrete
input on which identifier succeeds. -/
theorem claim_C7_witness :
    SuffixOf (" asdf".toList) ("abc-def asdf".toList) ∧
    (" asdf".toList).length ≤ ("abc-def asdf".toList).length :=
  claim_C7.2.2.1 ("abc-def asdf".toList) (" asdf".toList)
    ("abc-def".toList) rfl

end Parse
